import Mathlib

/-!
Verification development for the jiri multi-repository workspace manager.

The Go sources are shallowly embedded: pure helpers become Lean functions,
subprocess execution is abstracted by an oracle assigning an outcome to each
argument vector, and functions that issue several git commands additionally
return the trace of issued commands.  Components whose implementation is not
part of the sources at hand (the lockfile generator, the hook runner core and
the parallel worker pool) are modelled from the specification; each such
definition says so in its doc comment.  Definitions come first, followed by
the theorems about them.
-/

namespace Jiri

/-! ## Git command wrapper (src/gitutil/git.go) -/

/-- Outcome of executing one git subprocess: captured stdout, captured stderr,
and `none` for success or `some msg` for a failed process (the error value
returned by the underlying command invocation). -/
structure ExecResult where
  stdout : String
  stderr : String
  exit : Option String
  deriving DecidableEq

/-- Embedding of `gitutil.GitError`: the working directory, the command
arguments, the captured stdout (`Output`), the captured stderr
(`ErrorOutput`) and the underlying process error. -/
structure GitError where
  root : String
  args : List String
  output : String
  errorOutput : String
  err : String
  deriving DecidableEq

/-- Execution oracle: assigns to every argument vector the outcome of running
git with those arguments (abstracts `runGit`, which spawns the subprocess and
captures its stdout and stderr). -/
def Exec := List String → ExecResult

/-- Embedding of `(g *Git) run`: execute git and, on failure, wrap the
arguments and the captured stdout/stderr into a `GitError`; on success return
no error. -/
def run (exec : Exec) (root : String) (args : List String) : Option GitError :=
  match (exec args).exit with
  | none => none
  | some e => some ⟨root, args, (exec args).stdout, (exec args).stderr, e⟩

/-- Embedding of `trimOutput`: trim surrounding whitespace, return no lines
for an empty result and otherwise split at newlines. -/
def trimOutput (o : String) : List String :=
  let output := o.trim
  if output.length = 0 then [] else output.splitOn "\n"

/-- Embedding of `(g *Git) runOutput`: like `run` but, on success, return the
trimmed stdout lines. -/
def runOutput (exec : Exec) (root : String) (args : List String) :
    Except GitError (List String) :=
  match (exec args).exit with
  | none => .ok (trimOutput (exec args).stdout)
  | some e => .error ⟨root, args, (exec args).stdout, (exec args).stderr, e⟩

/-- Embedding of `(g *Git) BranchExists`: run
`git rev-parse --verify --quiet <branch>`; report an error only when the
process failed and wrote to stderr, and otherwise report whether stdout is
non-empty. -/
def branchExists (exec : Exec) (root : String) (branch : String) :
    Except GitError Bool :=
  let args := ["rev-parse", "--verify", "--quiet", branch]
  let r := exec args
  match r.exit with
  | some e =>
      if r.stderr ≠ "" then .error ⟨root, args, r.stdout, r.stderr, e⟩
      else .ok (r.stdout != "")
  | none => .ok (r.stdout != "")

/-- Option values accepted by `Reset` (`gitutil.ModeOpt`). -/
inductive ResetOpt where
  | modeOpt (mode : String)
  deriving DecidableEq

/-- Embedding of the argument vector built by `(g *Git) Reset`: the mode
defaults to `hard` and every supplied `ModeOpt` replaces it. -/
def resetArgs (target : String) (opts : List ResetOpt) : List String :=
  let mode := opts.foldl (fun _ o => match o with | .modeOpt m => m) "hard"
  ["reset", "--" ++ mode, target, "--"]

/-- Embedding of `(g *Git) Reset`: issue `git reset --<mode> <target> --`
through `run`. -/
def reset (exec : Exec) (root target : String) (opts : List ResetOpt) :
    Option GitError :=
  run exec root (resetArgs target opts)

/-- Option values accepted by `Merge` (`gitutil.SquashOpt`, `StrategyOpt`,
`ResetOnFailureOpt`, `FfOnlyOpt`). -/
inductive MergeOpt where
  | squashOpt (b : Bool)
  | strategyOpt (s : String)
  | resetOnFailureOpt (b : Bool)
  | ffOnlyOpt
  deriving DecidableEq

/-- Accumulator of the option loop inside `Merge`. -/
structure MergeState where
  args : List String
  squash : Bool
  strategy : String
  resetOnFailure : Bool
  deriving DecidableEq

/-- Embedding of the argument-building part of `(g *Git) Merge`: returns the
argument vector together with the effective resetOnFailure flag.  The loop
starts from `["merge"]`, squash false, empty strategy and resetOnFailure
true; `FfOnlyOpt` appends `--ff-only` in place. -/
def mergeArgs (branch : String) (opts : List MergeOpt) : List String × Bool :=
  let st := opts.foldl (fun (st : MergeState) o =>
    match o with
    | .squashOpt b => { st with squash := b }
    | .strategyOpt s => { st with strategy := s }
    | .resetOnFailureOpt b => { st with resetOnFailure := b }
    | .ffOnlyOpt => { st with args := st.args ++ ["--ff-only"] })
    (⟨["merge"], false, "", true⟩ : MergeState)
  let args := st.args ++ (if st.squash then ["--squash"] else ["--no-squash"])
  let args := args ++ (if st.strategy ≠ "" then ["--strategy=" ++ st.strategy] else [])
  (args ++ [branch], st.resetOnFailure)

/-- Failure of `Merge`: either the merge command failed (and any recovery
reset succeeded), or the recovery reset failed as well. -/
inductive MergeErr where
  | mergeFailed (ge : GitError)
  | resetFailed (ge : GitError) (ge2 : GitError)
  deriving DecidableEq

/-- Embedding of `(g *Git) Merge`: runs the merge command and, when it fails
and resetOnFailure is set, restores the working tree with
`git reset --merge` before returning the error.  The first component is the
trace of issued commands. -/
def merge (exec : Exec) (root branch : String) (opts : List MergeOpt) :
    List (List String) × Option MergeErr :=
  let args := (mergeArgs branch opts).1
  match runOutput exec root args with
  | .ok _ => ([args], none)
  | .error e =>
    if (mergeArgs branch opts).2 then
      match run exec root ["reset", "--merge"] with
      | none => ([args, ["reset", "--merge"]], some (.mergeFailed e))
      | some e2 => ([args, ["reset", "--merge"]], some (.resetFailed e e2))
    else ([args], some (.mergeFailed e))

/-- Failure of `Version`: the version command failed, or its output did not
parse as a git version. -/
inductive VersionErr where
  | runFailed (ge : GitError)
  | parseFailed
  deriving DecidableEq

/-- Embedding of `(g *Git) Version`: runs `git version` and parses the major
and minor components out of the third word of its single output line. -/
def version (exec : Exec) (root : String) : Except VersionErr (Nat × Nat) :=
  match runOutput exec root ["version"] with
  | .error e => .error (.runFailed e)
  | .ok out =>
    if out.length ≠ 1 then .error .parseFailed
    else
      let words := (out.headD "").splitOn " "
      if words.length < 3 then .error .parseFailed
      else
        let ver := (words.getD 2 "").splitOn "."
        if ver.length < 3 then .error .parseFailed
        else
          match (ver.getD 0 "").toNat?, (ver.getD 1 "").toNat? with
          | some maj, some minv => .ok (maj, minv)
          | _, _ => .error .parseFailed

/-- Failure of `Pull`: the pull command failed, or the subsequent version
query failed. -/
inductive PullErr where
  | pullFailed (ge : GitError)
  | versionFailed (ve : VersionErr)
  deriving DecidableEq

/-- Embedding of `(g *Git) Pull`: runs `git pull <remote> <branch>`; on
failure it issues `git reset --merge` (ignoring that command's outcome) and
returns the error; on success it queries the git version and, for git older
than 1.8, additionally runs a plain `git pull` whose failure is ignored.
The first component is the trace of issued commands. -/
def pull (exec : Exec) (root remote branch : String) :
    List (List String) × Option PullErr :=
  let args := ["pull", remote, branch]
  match runOutput exec root args with
  | .error e => ([args, ["reset", "--merge"]], some (.pullFailed e))
  | .ok _ =>
    match version exec root with
    | .error ve => ([args, ["version"]], some (.versionFailed ve))
    | .ok (maj, minv) =>
      if maj < 2 ∧ minv < 8 then ([args, ["version"], ["pull"]], none)
      else ([args, ["version"]], none)

/-- Concrete oracle whose every invocation fails with stdout `out`, stderr
`err` and process error `boom`. -/
def execFailEx : Exec := fun _ => ⟨"out", "err", some "boom"⟩

/-- Concrete oracle for a silently failing invocation: the process fails but
produces neither stdout nor stderr. -/
def execSilentFailEx : Exec := fun _ => ⟨"", "", some "exit status 1"⟩

/-! ## Upload command helpers (src/cmd/jiri/upload.go) -/

/-- Embedding of the Go split on a one-character separator, over strings as
character lists: splitting the empty string yields one empty token, and a
separator produces a token boundary. -/
def splitOnSep (sep : Char) : List Char → List (List Char)
  | [] => [[]]
  | c :: rest =>
    let r := splitOnSep sep rest
    if c = sep then [] :: r
    else
      match r with
      | [] => [[c]]
      | t :: ts => (c :: t) :: ts

/-- Suffix appended by `parseEmails` to tokens lacking an at sign
(`@google.com`). -/
def atGoogle : List Char := ['@', 'g', 'o', 'o', 'g', 'l', 'e', '.', 'c', 'o', 'm']

/-- Loop body of `parseEmails`: skip empty tokens, keep tokens containing an
at sign, append `@google.com` to the rest. -/
def parseEmailsStep (emails : List (List Char)) (token : List Char) :
    List (List Char) :=
  if token = [] then emails
  else if token.contains '@' then emails ++ [token]
  else emails ++ [token ++ atGoogle]

/-- Embedding of `parseEmails`: split the input on commas and accumulate the
email list in order. -/
def parseEmails (value : List Char) : List (List Char) :=
  (splitOnSep ',' value).foldl parseEmailsStep []

/-- Embedding of the enclosing-project search in `runUpload`: a directory is
its list of path components with the deepest component first, so the parent
of `d :: rest` is `rest` and the filesystem root is `[]`.  The walk checks
the stop conditions of the loop first — the directory `stop` (the parent of
the workspace root) and the filesystem root — and otherwise stops at the
first directory that is a local project, stepping to the parent when it is
not. -/
def walkUp (isLocal : List String → Bool) (stop : List String) :
    List String → Option (List String)
  | [] => none
  | d :: rest =>
    if d :: rest = stop then none
    else if isLocal (d :: rest) then some (d :: rest)
    else walkUp isLocal stop rest

/-- Fuel-bounded variant of `walkUp`: `none` when the step budget is
exhausted, `some r` when the walk finished with result `r`. -/
def walkUpFuel (isLocal : List String → Bool) (stop : List String) :
    Nat → List String → Option (Option (List String))
  | 0, _ => none
  | _ + 1, [] => some none
  | fuel + 1, d :: rest =>
    if d :: rest = stop then some none
    else if isLocal (d :: rest) then some (some (d :: rest))
    else walkUpFuel isLocal stop fuel rest

/-- Example project predicate used by the C4 witness. -/
def isLocalEx : List String → Bool := fun l => l == ["b", "a"]

/-! ## Hook runner.  The project package implementing `RunHooks` and
`FetchPackages` is not among the sources at hand; its behaviour is modelled
from the specification.  The run-hooks command driving it is embedded from
src/cmd/jiri/run_hooks.go. -/

/-- A declared hook: name and owning project. -/
structure Hook where
  name : String
  projectName : String
  deriving DecidableEq

/-- Attempt oracle: `outcome h i` tells whether hook `h` succeeds at its
i-th attempt. -/
def HookOutcome := Hook → Nat → Bool

/-- Modelled from the spec: a hook ultimately succeeds when some attempt
within the configured attempt count succeeds; failures are retried up to
that count before being recorded as final. -/
def hookSucceeds (attempts : Nat) (outcome : HookOutcome) (h : Hook) : Bool :=
  (List.range attempts).any (fun i => outcome h i)

/-- Modelled from the spec (`project.RunHooks`): run every hook with
isolated failures and return an aggregate error enumerating every hook that
ultimately failed; a fully successful run returns no error. -/
def runHooksAll (attempts : Nat) (outcome : HookOutcome) (hooks : List Hook) :
    Except (List Hook) Unit :=
  let failed := hooks.filter (fun h => !hookSucceeds attempts outcome h)
  if failed = [] then .ok () else .error failed

/-- Errors surfaced by the run-hooks command. -/
inductive RunHooksCmdErr where
  | hookFailure (failed : List Hook)
  | fetchFailure (msg : String)
  deriving DecidableEq

/-- Embedding of the run-hooks command body after manifest loading
(src/cmd/jiri/run_hooks.go): run all hooks; on a hook-run error return that
error to the caller; otherwise fetch packages when the fetch flag is set and
packages exist (`fetchResult` abstracts `project.FetchPackages`).  The
second component records whether package fetching was invoked. -/
def runHooksCommand (attempts : Nat) (outcome : HookOutcome)
    (hooks : List Hook) (fetchPackagesFlag : Bool) (pkgs : List String)
    (fetchResult : Option String) : Except RunHooksCmdErr Unit × Bool :=
  match runHooksAll attempts outcome hooks with
  | .error failed => (.error (.hookFailure failed), false)
  | .ok () =>
    if fetchPackagesFlag ∧ pkgs ≠ [] then
      (match fetchResult with
        | none => (.ok (), true)
        | some m => (.error (.fetchFailure m), true))
    else (.ok (), false)

/-- Example hooks for the C5 witness: the first always fails, the second
succeeds at once. -/
def hookEx1 : Hook := ⟨"gen", "p1"⟩

/-- Second example hook. -/
def hookEx2 : Hook := ⟨"fmt", "p2"⟩

/-- Attempt oracle for the C5 witness. -/
def outcomeEx : HookOutcome := fun h _ => h == hookEx2

/-! ## Parallel worker pool.  The runp implementation is not among the
sources at hand; the bounded worker pool is modelled from the
specification. -/

/-- Modelled from the spec (§4.5/§5): one completed execution of the bounded
worker pool with `jobs` workers.  Each task (one project subprocess) records
the worker that ran it and the half-open interval of instants during which
its subprocess was alive; a worker owns one subprocess at a time and runs
its assigned tasks sequentially, so intervals of distinct tasks on the same
worker are disjoint. -/
structure PoolRun (jobs : Nat) (Task : Type) where
  worker : Task → Fin jobs
  begins : Task → Nat
  ends : Task → Nat
  sequential : ∀ t₁ t₂, t₁ ≠ t₂ → worker t₁ = worker t₂ →
    ends t₁ ≤ begins t₂ ∨ ends t₂ ≤ begins t₁

/-- Concrete pool execution for the C7 witness: two workers, three tasks;
tasks 0 and 2 share worker 0 back to back, task 1 occupies worker 1. -/
def poolRunEx : PoolRun 2 (Fin 3) where
  worker := fun t => if t = 1 then 1 else 0
  begins := fun t => if t = 2 then 5 else 0
  ends := fun t => if t = 2 then 9 else 5
  sequential := by decide

/-! ## Lockfile generator.  The project package implementing
`GenerateJiriLockFile` is not among the sources at hand; generation is
modelled from the specification (§4.3): each input manifest resolves to a
pin list, the pins are unioned in input order with cross-input conflict
detection, and the output is the canonical key-sorted mapping.  The resolve
command wiring (`runResolve`, src/unnamed/part_002) is embedded from the
source. -/

section Lockfile

set_option linter.unusedSectionVars false

variable {K V : Type} [LinearOrder K] [DecidableEq V]

/-- Modelled from the spec: the pin recorded for key `k` in the accumulated
pin list. -/
def lookupKey (k : K) : List (K × V) → Option V
  | [] => none
  | p :: rest => if p.1 = k then some p.2 else lookupKey k rest

/-- Modelled from the spec (`LockFileGenerator`): record one resolved pin.
A fresh key is appended; an agreeing re-pin is kept; a disagreeing re-pin is
a lock conflict carrying the key and both pins, unless conflict detection is
suppressed, in which case the later pin wins. -/
def insertPin (ignore : Bool) (acc : List (K × V)) (p : K × V) :
    Except (K × V × V) (List (K × V)) :=
  match lookupKey p.1 acc with
  | none => .ok (acc ++ [p])
  | some v =>
    if v = p.2 then .ok acc
    else if ignore then
      .ok (acc.map (fun q => if q.1 = p.1 then (q.1, p.2) else q))
    else .error (p.1, v, p.2)

/-- The successful result of `insertPin` (total; the behaviour when conflict
detection is suppressed). -/
def insertPinT (acc : List (K × V)) (p : K × V) : List (K × V) :=
  match lookupKey p.1 acc with
  | none => acc ++ [p]
  | some v =>
    if v = p.2 then acc
    else acc.map (fun q => if q.1 = p.1 then (q.1, p.2) else q)

/-- Merge the resolved pins of one input manifest into the accumulator. -/
def mergePins (ignore : Bool) (acc : List (K × V)) :
    List (K × V) → Except (K × V × V) (List (K × V))
  | [] => .ok acc
  | p :: ps =>
    match insertPin ignore acc p with
    | .error e => .error e
    | .ok acc2 => mergePins ignore acc2 ps

/-- Union the pins of the input manifests in input order. -/
def mergeManifests (ignore : Bool) (acc : List (K × V)) :
    List (List (K × V)) → Except (K × V × V) (List (K × V))
  | [] => .ok acc
  | m :: ms =>
    match mergePins ignore acc m with
    | .error e => .error e
    | .ok acc2 => mergeManifests ignore acc2 ms

/-- Modelled from the spec (`Generate`): resolve and union the inputs and
emit the canonical key-sorted pin list; the serialized lockfile bytes are a
function of this list. -/
def generateLocks (ignore : Bool) (ms : List (List (K × V))) :
    Except (K × V × V) (List (K × V)) :=
  match mergeManifests ignore [] ms with
  | .error e => .error e
  | .ok pins => .ok (pins.insertionSort (fun a b => a.1 ≤ b.1))

/-- The jiri global state bits relevant to lock generation (`jiri.X`). -/
structure JiriX where
  ignoreLockConflicts : Bool
  deriving DecidableEq

/-- Embedding of the flag assignment in `runResolve`
(src/unnamed/part_002): the resolve command suppresses lock-conflict
detection before every generation. -/
def runResolveState (x : JiriX) : JiriX := { x with ignoreLockConflicts := true }

instance (priority := low) : IsTotal (K × V) (fun a b => a.1 ≤ b.1) :=
  ⟨fun a b => le_total a.1 b.1⟩

instance (priority := low) : IsTrans (K × V) (fun a b => a.1 ≤ b.1) :=
  ⟨fun _ _ _ => le_trans⟩

end Lockfile

/-! ## Theorems -/

/-- C3: every git invocation made through the wrapper's run/runOutput paths
yields, on failure of the underlying command, a structured error carrying the
command arguments and the captured stdout and stderr, and yields no error on
success. -/
theorem run_runOutput_error_structure (exec : Exec) (root : String)
    (args : List String) :
    ((exec args).exit = none →
      run exec root args = none ∧
      runOutput exec root args = .ok (trimOutput (exec args).stdout)) ∧
    (∀ e, (exec args).exit = some e →
      run exec root args =
        some ⟨root, args, (exec args).stdout, (exec args).stderr, e⟩ ∧
      runOutput exec root args =
        .error ⟨root, args, (exec args).stdout, (exec args).stderr, e⟩) := by
  constructor
  · intro h
    constructor <;> simp [run, runOutput, h]
  · intro e h
    constructor <;> simp [run, runOutput, h]

/-- Witness for C3 at a concrete failing invocation. -/
theorem run_runOutput_error_structure_witness :
    run execFailEx "/r" ["status"] =
      some ⟨"/r", ["status"], "out", "err", "boom"⟩ ∧
    runOutput execFailEx "/r" ["status"] =
      .error ⟨"/r", ["status"], "out", "err", "boom"⟩ :=
  (run_runOutput_error_structure execFailEx "/r" ["status"]).2 "boom" rfl

/-- C10: `BranchExists` reports an error only when the underlying
`git rev-parse --verify --quiet` invocation wrote to stderr; otherwise it
returns true exactly when the command produced non-empty stdout, so a
silently failing command (empty stderr, empty stdout) yields `(false, nil)`
rather than an error. -/
theorem branchExists_spec (exec : Exec) (root branch : String)
    (r : ExecResult) (hr : exec ["rev-parse", "--verify", "--quiet", branch] = r) :
    (∀ ge, branchExists exec root branch = .error ge →
      r.stderr ≠ "" ∧ r.exit = some ge.err ∧
      ge.output = r.stdout ∧ ge.errorOutput = r.stderr) ∧
    (∀ b, branchExists exec root branch = .ok b →
      (b = true ↔ r.stdout ≠ "")) ∧
    (∀ e, r.exit = some e → r.stderr = "" → r.stdout = "" →
      branchExists exec root branch = .ok false) := by
  unfold branchExists
  simp only [hr]
  refine ⟨?_, ?_, ?_⟩
  · intro ge hge
    rcases hx : r.exit with _ | e
    · simp [hx] at hge
    · simp only [hx] at hge
      by_cases hs : r.stderr = ""
      · simp [hs] at hge
      · simp only [ne_eq, hs, not_false_eq_true, if_true] at hge
        cases hge
        exact ⟨hs, rfl, rfl, rfl⟩
  · intro b hb
    have hres : ∃ hb2 : b = (r.stdout != ""), True := by
      rcases hx : r.exit with _ | e
      · simp only [hx] at hb
        cases hb
        exact ⟨rfl, trivial⟩
      · simp only [hx] at hb
        by_cases hs : r.stderr = ""
        · simp only [ne_eq, hs, not_true_eq_false, if_false] at hb
          cases hb
          exact ⟨rfl, trivial⟩
        · simp [hs] at hb
    rcases hres with ⟨hb2, _⟩
    subst hb2
    simp [bne_iff_ne]
  · intro e hx hs hout
    simp [hx, hs, hout]

/-- Witness for C10: the silently failing invocation yields `.ok false`. -/
theorem branchExists_spec_witness :
    branchExists execSilentFailEx "/r" "feature" = .ok false :=
  (branchExists_spec execSilentFailEx "/r" "feature"
    ⟨"", "", some "exit status 1"⟩ rfl).2.2 "exit status 1" rfl rfl rfl

/-- C6: `Reset` invoked without a mode option performs a hard reset
(`git reset --hard <target> --`); a supplied mode option replaces the hard
mode. -/
theorem reset_default_hard (exec : Exec) (root target : String) :
    resetArgs target [] = ["reset", "--hard", target, "--"] ∧
    (∀ m, resetArgs target [.modeOpt m] = ["reset", "--" ++ m, target, "--"]) ∧
    (∀ opts, reset exec root target opts = run exec root (resetArgs target opts)) := by
  refine ⟨rfl, fun m => rfl, fun opts => rfl⟩

/-- C9: with default options (resetOnFailure true), a failing merge command
makes `Merge` issue `git reset --merge` before returning an error, and a
failing pull command makes `Pull` do the same, so neither leaves the
checkout in a mid-merge state. -/
theorem merge_pull_reset_on_failure (exec : Exec) (root branch remote : String) :
    mergeArgs branch [] = (["merge", "--no-squash", branch], true) ∧
    ((exec ["merge", "--no-squash", branch]).exit ≠ none →
      (merge exec root branch []).1 =
        [["merge", "--no-squash", branch], ["reset", "--merge"]] ∧
      (merge exec root branch []).2 ≠ none) ∧
    ((exec ["pull", remote, branch]).exit ≠ none →
      (pull exec root remote branch).1 =
        [["pull", remote, branch], ["reset", "--merge"]] ∧
      (pull exec root remote branch).2 ≠ none) := by
  refine ⟨rfl, ?_, ?_⟩
  · intro h
    rcases hx : (exec ["merge", "--no-squash", branch]).exit with _ | e
    · exact absurd hx h
    · have hargs : (mergeArgs branch []).1 = ["merge", "--no-squash", branch] := rfl
      have hrof : (mergeArgs branch []).2 = true := rfl
      rcases hrr : run exec root ["reset", "--merge"] with _ | e2 <;>
        simp [merge, hargs, hrof, runOutput, hx, hrr]
  · intro h
    rcases hx : (exec ["pull", remote, branch]).exit with _ | e
    · exact absurd hx h
    · simp [pull, runOutput, hx]

/-- Witness for C9 at a concrete always-failing oracle. -/
theorem merge_pull_reset_on_failure_witness :
    ((merge execFailEx "/r" "b" []).1 =
        [["merge", "--no-squash", "b"], ["reset", "--merge"]] ∧
      (merge execFailEx "/r" "b" []).2 ≠ none) ∧
    ((pull execFailEx "/r" "origin" "b").1 =
        [["pull", "origin", "b"], ["reset", "--merge"]] ∧
      (pull execFailEx "/r" "origin" "b").2 ≠ none) :=
  ⟨(merge_pull_reset_on_failure execFailEx "/r" "b" "origin").2.1
      (by simp [execFailEx]),
    (merge_pull_reset_on_failure execFailEx "/r" "b" "origin").2.2
      (by simp [execFailEx])⟩

/-- The `parseEmails` accumulation is append of the filtered, mapped token
list. -/
theorem parseEmails_foldl (tokens : List (List Char)) :
    ∀ acc, tokens.foldl parseEmailsStep acc =
      acc ++ (tokens.filter (fun t => t ≠ [])).map
        (fun t => if t.contains '@' then t else t ++ atGoogle) := by
  induction tokens with
  | nil => intro acc; simp
  | cons t ts ih =>
    intro acc
    by_cases h : t = []
    · simp [parseEmailsStep, h, ih]
    · by_cases hc : t.contains '@'
      · have hm : '@' ∈ t := by simpa using hc
        simp [parseEmailsStep, h, hc, hm, ih, List.append_assoc]
      · have hm : ¬ ('@' ∈ t) := by simpa using hc
        simp [parseEmailsStep, h, hc, hm, ih, List.append_assoc]

/-- C8: `parseEmails` splits its input on commas, drops empty tokens, keeps
tokens already containing an at sign and appends `@google.com` to the rest;
the empty string yields the empty list. -/
theorem parseEmails_spec (value : List Char) :
    parseEmails value =
      ((splitOnSep ',' value).filter (fun t => t ≠ [])).map
        (fun t => if t.contains '@' then t else t ++ atGoogle) ∧
    parseEmails [] = [] := by
  constructor
  · simpa using parseEmails_foldl (splitOnSep ',' value) []
  · rfl

/-- A step budget exceeding the directory depth suffices for the walk. -/
theorem walkUpFuel_sufficient (isLocal : List String → Bool)
    (stop : List String) :
    ∀ dir fuel, dir.length < fuel →
      walkUpFuel isLocal stop fuel dir = some (walkUp isLocal stop dir) := by
  intro dir
  induction dir with
  | nil =>
    intro fuel hf
    match fuel, hf with
    | f + 1, _ => rfl
  | cons d rest ih =>
    intro fuel hf
    match fuel, hf with
    | f + 1, hf =>
      show walkUpFuel isLocal stop (f + 1) (d :: rest) = _
      by_cases hs : d :: rest = stop
      · simp [walkUpFuel, walkUp, hs]
      · by_cases hl : isLocal (d :: rest)
        · simp [walkUpFuel, walkUp, hs, hl]
        · have hrest : rest.length < f := by
            simpa [List.length_cons, Nat.succ_lt_succ_iff] using hf
          simp [walkUpFuel, walkUp, hs, hl, ih f hrest]

/-- A successful walk returns the first local project above the start. -/
theorem walkUp_some_spec (isLocal : List String → Bool) (stop : List String) :
    ∀ dir p, walkUp isLocal stop dir = some p →
      ∃ k, k ≤ dir.length ∧ p = dir.drop k ∧ p ≠ stop ∧ p ≠ [] ∧
        isLocal p = true ∧
        ∀ j, j < k → isLocal (dir.drop j) = false ∧ dir.drop j ≠ stop := by
  intro dir
  induction dir with
  | nil => intro p hp; simp [walkUp] at hp
  | cons d rest ih =>
    intro p hp
    by_cases hs : d :: rest = stop
    · simp [walkUp, hs] at hp
    · by_cases hl : isLocal (d :: rest)
      · have hp2 : p = d :: rest := by
          simpa [walkUp, hs, hl] using hp.symm
        subst hp2
        exact ⟨0, Nat.zero_le _, rfl, hs, by simp, hl, fun j hj => absurd hj (Nat.not_lt_zero j)⟩
      · have hrec : walkUp isLocal stop rest = some p := by
          simpa [walkUp, hs, hl] using hp
        rcases ih p hrec with ⟨k, hk, hpd, hps, hpn, hpl, hfirst⟩
        refine ⟨k + 1, Nat.succ_le_succ hk, by simpa using hpd, hps, hpn, hpl, ?_⟩
        intro j hj
        match j, hj with
        | 0, _ => exact ⟨by simpa using hl, by simpa using hs⟩
        | j + 1, hj =>
          have := hfirst j (Nat.lt_of_succ_lt_succ hj)
          simpa using this

/-- An unsuccessful walk reached the workspace-root parent or the filesystem
root, every directory strictly below having been neither a project nor a
stopping point. -/
theorem walkUp_none_spec (isLocal : List String → Bool) (stop : List String) :
    ∀ dir, walkUp isLocal stop dir = none →
      ∃ k, k ≤ dir.length ∧ (dir.drop k = stop ∨ dir.drop k = []) ∧
        ∀ j, j < k → isLocal (dir.drop j) = false ∧ dir.drop j ≠ stop := by
  intro dir
  induction dir with
  | nil =>
    intro _
    exact ⟨0, Nat.le_refl _, Or.inr rfl, fun j hj => absurd hj (Nat.not_lt_zero j)⟩
  | cons d rest ih =>
    intro hp
    by_cases hs : d :: rest = stop
    · exact ⟨0, Nat.zero_le _, Or.inl hs, fun j hj => absurd hj (Nat.not_lt_zero j)⟩
    · by_cases hl : isLocal (d :: rest)
      · simp [walkUp, hs, hl] at hp
      · have hrec : walkUp isLocal stop rest = none := by
          simpa [walkUp, hs, hl] using hp
        rcases ih hrec with ⟨k, hk, hstop, hfirst⟩
        refine ⟨k + 1, Nat.succ_le_succ hk, by simpa using hstop, ?_⟩
        intro j hj
        match j, hj with
        | 0, _ => exact ⟨by simpa using hl, by simpa using hs⟩
        | j + 1, hj =>
          have := hfirst j (Nat.lt_of_succ_lt_succ hj)
          simpa using this

/-- C4: the enclosing-project search walks up one parent per step and
terminates for every starting path within depth-plus-one steps; it stops
successfully at the first directory that is a local project, and stops
unsuccessfully upon reaching the parent of the workspace root or the
filesystem root. -/
theorem walkUp_terminates_first_project (isLocal : List String → Bool)
    (stop : List String) (dir : List String) :
    walkUpFuel isLocal stop (dir.length + 1) dir =
      some (walkUp isLocal stop dir) ∧
    (∀ p, walkUp isLocal stop dir = some p →
      ∃ k, k ≤ dir.length ∧ p = dir.drop k ∧ p ≠ stop ∧ p ≠ [] ∧
        isLocal p = true ∧
        ∀ j, j < k → isLocal (dir.drop j) = false ∧ dir.drop j ≠ stop) ∧
    (walkUp isLocal stop dir = none →
      ∃ k, k ≤ dir.length ∧ (dir.drop k = stop ∨ dir.drop k = []) ∧
        ∀ j, j < k → isLocal (dir.drop j) = false ∧ dir.drop j ≠ stop) :=
  ⟨walkUpFuel_sufficient isLocal stop dir (dir.length + 1) (Nat.lt_succ_self _),
    fun p hp => walkUp_some_spec isLocal stop dir p hp,
    fun hn => walkUp_none_spec isLocal stop dir hn⟩

/-- Witness for C4 at a concrete directory tree: starting at /a/b/c with the
workspace-root parent /x, the walk finds the project /a/b. -/
theorem walkUp_terminates_first_project_witness :
    walkUpFuel isLocalEx ["x"] 4 ["c", "b", "a"] =
      some (walkUp isLocalEx ["x"] ["c", "b", "a"]) ∧
    walkUp isLocalEx ["x"] ["c", "b", "a"] = some ["b", "a"] :=
  ⟨(walkUp_terminates_first_project isLocalEx ["x"] ["c", "b", "a"]).1,
    by decide⟩

/-- C5: running all hooks returns no error exactly when every hook
ultimately succeeds, and otherwise returns an aggregate error enumerating
every hook that ultimately failed; in the run-hooks command a hook-run error
is returned to the caller and package fetching is skipped. -/
theorem runHooks_aggregate_error (attempts : Nat) (outcome : HookOutcome)
    (hooks : List Hook) (fetchPackagesFlag : Bool) (pkgs : List String)
    (fetchResult : Option String) :
    (runHooksAll attempts outcome hooks = .ok () ↔
      ∀ h ∈ hooks, hookSucceeds attempts outcome h = true) ∧
    (∀ failed, runHooksAll attempts outcome hooks = .error failed →
      failed = hooks.filter (fun h => !hookSucceeds attempts outcome h) ∧
      failed ≠ [] ∧
      ∀ h ∈ failed, hookSucceeds attempts outcome h = false) ∧
    (∀ failed, runHooksAll attempts outcome hooks = .error failed →
      runHooksCommand attempts outcome hooks fetchPackagesFlag pkgs
        fetchResult = (.error (.hookFailure failed), false)) := by
  refine ⟨?_, ?_, ?_⟩
  · constructor
    · intro hok h hh
      unfold runHooksAll at hok
      by_cases hf : hooks.filter (fun h => !hookSucceeds attempts outcome h) = []
      · have := List.filter_eq_nil_iff.1 hf h hh
        simpa using this
      · simp [hf] at hok
    · intro hall
      unfold runHooksAll
      have hf : hooks.filter (fun h => !hookSucceeds attempts outcome h) = [] := by
        refine List.filter_eq_nil_iff.2 ?_
        intro h hh
        simp [hall h hh]
      simp [hf]
  · intro failed hfail
    unfold runHooksAll at hfail
    by_cases hf : hooks.filter (fun h => !hookSucceeds attempts outcome h) = []
    · simp [hf] at hfail
    · simp only [hf, if_false] at hfail
      cases hfail
      refine ⟨rfl, hf, ?_⟩
      intro h hh
      have := List.of_mem_filter hh
      simpa using this
  · intro failed hfail
    unfold runHooksCommand
    simp [hfail]

/-- Witness for C5: the failing hook is enumerated and package fetching is
skipped. -/
theorem runHooks_aggregate_error_witness :
    runHooksAll 2 outcomeEx [hookEx1, hookEx2] = .error [hookEx1] ∧
    runHooksCommand 2 outcomeEx [hookEx1, hookEx2] true ["pkg"] none =
      (.error (.hookFailure [hookEx1]), false) :=
  ⟨rfl,
    (runHooks_aggregate_error 2 outcomeEx [hookEx1, hookEx2] true ["pkg"]
      none).2.2 [hookEx1] rfl⟩

/-- C7: a pool started with `jobs` workers never has more than `jobs`
subprocesses alive simultaneously: at every instant, the tasks whose
subprocess is alive number at most `jobs`. -/
theorem poolRun_bounded_concurrency {Task : Type} [DecidableEq Task]
    (jobs : Nat) (run : PoolRun jobs Task) (tasks : Finset Task) (n : Nat) :
    (tasks.filter (fun t => run.begins t ≤ n ∧ n < run.ends t)).card ≤ jobs := by
  have hmap : ∀ t ∈ tasks.filter (fun t => run.begins t ≤ n ∧ n < run.ends t),
      run.worker t ∈ (Finset.univ : Finset (Fin jobs)) :=
    fun t _ => Finset.mem_univ _
  have hinj : Set.InjOn run.worker
      (tasks.filter (fun t => run.begins t ≤ n ∧ n < run.ends t)) := by
    intro t₁ h₁ t₂ h₂ hw
    by_contra hne
    simp only [Finset.coe_filter, Set.mem_setOf_eq, Finset.mem_coe] at h₁ h₂
    rcases run.sequential t₁ t₂ hne hw with hc | hc
    · omega
    · omega
  calc (tasks.filter (fun t => run.begins t ≤ n ∧ n < run.ends t)).card
      ≤ (Finset.univ : Finset (Fin jobs)).card :=
        Finset.card_le_card_of_injOn run.worker hmap hinj
    _ = jobs := by simp

/-- Witness for C7: at instant 3 exactly the two tasks on distinct workers
are alive, and the bound of the theorem holds. -/
theorem poolRun_bounded_concurrency_witness :
    (Finset.univ.filter
        (fun t => poolRunEx.begins t ≤ 3 ∧ 3 < poolRunEx.ends t)).card = 2 ∧
    (Finset.univ.filter
        (fun t => poolRunEx.begins t ≤ 3 ∧ 3 < poolRunEx.ends t)).card ≤ 2 :=
  ⟨by decide, poolRun_bounded_concurrency 2 poolRunEx Finset.univ 3⟩

section LockfileProofs

set_option linter.unusedSectionVars false

variable {K V : Type} [LinearOrder K] [DecidableEq V]

theorem lookupKey_append (k : K) (l₁ l₂ : List (K × V)) :
    lookupKey k (l₁ ++ l₂) =
      match lookupKey k l₁ with
      | some v => some v
      | none => lookupKey k l₂ := by
  induction l₁ with
  | nil => rfl
  | cons p rest ih =>
    by_cases h : p.1 = k <;> simp [lookupKey, h, ih]

theorem lookupKey_eq_none (k : K) (l : List (K × V)) :
    lookupKey k l = none ↔ k ∉ l.map Prod.fst := by
  induction l with
  | nil => simp [lookupKey]
  | cons p rest ih =>
    simp only [lookupKey, List.map_cons, List.mem_cons]
    by_cases h : p.1 = k
    · simp [h]
    · simp only [h, if_false]
      rw [ih]
      constructor
      · intro hx hor
        rcases hor with he | hm
        · exact h he.symm
        · exact hx hm
      · intro hx hm
        exact hx (Or.inr hm)

theorem lookupKey_mem {k : K} {v : V} {l : List (K × V)}
    (h : lookupKey k l = some v) : (k, v) ∈ l := by
  induction l with
  | nil => simp [lookupKey] at h
  | cons p rest ih =>
    by_cases hp : p.1 = k
    · have h2 : p.2 = v := by
        simpa [lookupKey, hp] using h
      have he : (k, v) = p := by
        calc (k, v) = (p.1, p.2) := by rw [hp, h2]
          _ = p := rfl
      exact List.mem_cons.2 (Or.inl he)
    · have h2 : lookupKey k rest = some v := by
        simpa [lookupKey, hp] using h
      exact List.mem_cons_of_mem _ (ih h2)

theorem lookupKey_of_mem_nodup {k : K} {v : V} {l : List (K × V)}
    (hnd : (l.map Prod.fst).Nodup) (hm : (k, v) ∈ l) :
    lookupKey k l = some v := by
  induction l with
  | nil => simp at hm
  | cons p rest ih =>
    rcases List.mem_cons.1 hm with hm | hm
    · have h1 : p.1 = k := by rw [← hm]
      have h2 : p.2 = v := by rw [← hm]
      simp [lookupKey, h1, h2]
    · have hk : k ∈ rest.map Prod.fst :=
        List.mem_map.2 ⟨(k, v), hm, rfl⟩
      rw [List.map_cons] at hnd
      have hp : p.1 ∉ rest.map Prod.fst := (List.nodup_cons.1 hnd).1
      have hne : p.1 ≠ k := fun he => hp (he ▸ hk)
      have hnd2 : (rest.map Prod.fst).Nodup := (List.nodup_cons.1 hnd).2
      simp [lookupKey, hne, ih hnd2 hm]

theorem keys_update (p₁ : K) (w : V) (acc : List (K × V)) :
    ((acc.map (fun q => if q.1 = p₁ then (q.1, w) else q)).map Prod.fst) =
      acc.map Prod.fst := by
  induction acc with
  | nil => rfl
  | cons q rest ih =>
    by_cases h : q.1 = p₁ <;> simp [h, ih]

theorem lookupKey_update_self (k : K) (w : V) (acc : List (K × V)) :
    lookupKey k (acc.map (fun q => if q.1 = k then (q.1, w) else q)) =
      (lookupKey k acc).map (fun _ => w) := by
  induction acc with
  | nil => rfl
  | cons q rest ih =>
    by_cases h : q.1 = k <;> simp [lookupKey, h, ih]

theorem lookupKey_update_other {p₁ k : K} (hne : p₁ ≠ k) (w : V)
    (acc : List (K × V)) :
    lookupKey k (acc.map (fun q => if q.1 = p₁ then (q.1, w) else q)) =
      lookupKey k acc := by
  induction acc with
  | nil => rfl
  | cons q rest ih =>
    by_cases h1 : q.1 = p₁
    · have h2 : ¬ q.1 = k := fun he => hne (h1 ▸ he)
      simp [lookupKey, h1, h2, ih, hne]
    · by_cases h2 : q.1 = k <;>
        simp [lookupKey, h1, h2, ih, hne, Ne.symm hne]

theorem insertPinT_nodup (acc : List (K × V)) (p : K × V)
    (hnd : (acc.map Prod.fst).Nodup) :
    ((insertPinT acc p).map Prod.fst).Nodup := by
  rcases h : lookupKey p.1 acc with _ | v
  · have hfree : p.1 ∉ acc.map Prod.fst := (lookupKey_eq_none p.1 acc).1 h
    simp only [insertPinT, h, List.map_append, List.map_cons, List.map_nil]
    exact List.Nodup.append hnd (List.nodup_singleton p.1)
      (fun a ha hb => hfree ((List.mem_singleton.1 hb) ▸ ha))
  · simp only [insertPinT, h]
    by_cases hv : v = p.2
    · simpa [hv] using hnd
    · rw [if_neg hv, keys_update]
      exact hnd

theorem insertPin_true (acc : List (K × V)) (p : K × V) :
    insertPin true acc p = .ok (insertPinT acc p) := by
  rcases h : lookupKey p.1 acc with _ | v
  · simp [insertPin, insertPinT, h]
  · by_cases hv : v = p.2 <;> simp [insertPin, insertPinT, h, hv]

theorem mergePins_true (ps : List (K × V)) :
    ∀ acc, mergePins true acc ps = .ok (ps.foldl insertPinT acc) := by
  induction ps with
  | nil => intro acc; rfl
  | cons p rest ih =>
    intro acc
    simp [mergePins, insertPin_true, ih]

theorem mergeManifests_true (ms : List (List (K × V))) :
    ∀ acc, mergeManifests true acc ms =
      .ok (ms.foldl (fun a m => m.foldl insertPinT a) acc) := by
  induction ms with
  | nil => intro acc; rfl
  | cons m ms ih =>
    intro acc
    simp [mergeManifests, mergePins_true, ih]

theorem lookupKey_insertPinT_self (acc : List (K × V)) (k : K) (v : V) :
    lookupKey k (insertPinT acc (k, v)) = some v := by
  rcases h : lookupKey k acc with _ | v0
  · simp only [insertPinT, h]
    rw [lookupKey_append, h]
    simp [lookupKey]
  · simp only [insertPinT, h]
    by_cases hv : v0 = v
    · rw [if_pos hv, h, hv]
    · rw [if_neg hv, lookupKey_update_self, h]
      rfl

theorem lookupKey_insertPinT_other (acc : List (K × V)) (p : K × V) (k : K)
    (hne : p.1 ≠ k) : lookupKey k (insertPinT acc p) = lookupKey k acc := by
  rcases h : lookupKey p.1 acc with _ | v
  · simp only [insertPinT, h]
    rw [lookupKey_append]
    rcases h2 : lookupKey k acc with _ | w <;> simp [lookupKey, hne]
  · simp only [insertPinT, h]
    by_cases hv : v = p.2
    · simp [hv]
    · rw [if_neg hv]
      exact lookupKey_update_other hne p.2 acc

theorem foldl_insertPinT_fresh (k : K) (ps : List (K × V)) :
    ∀ acc, (∀ p ∈ ps, p.1 ≠ k) →
      lookupKey k (ps.foldl insertPinT acc) = lookupKey k acc := by
  induction ps with
  | nil => intro acc _; rfl
  | cons p rest ih =>
    intro acc hfresh
    have h1 : p.1 ≠ k := hfresh p (List.mem_cons_self p rest)
    have h2 : ∀ q ∈ rest, q.1 ≠ k :=
      fun q hq => hfresh q (List.mem_cons_of_mem p hq)
    calc lookupKey k (List.foldl insertPinT (insertPinT acc p) rest)
        = lookupKey k (insertPinT acc p) := ih (insertPinT acc p) h2
      _ = lookupKey k acc := lookupKey_insertPinT_other acc p k h1

theorem foldl_insertPinT_wins {k : K} {v : V} {ps : List (K × V)}
    (hnd : (ps.map Prod.fst).Nodup) (hm : (k, v) ∈ ps) :
    ∀ acc, lookupKey k (ps.foldl insertPinT acc) = some v := by
  intro acc
  rcases List.append_of_mem hm with ⟨s, t, rfl⟩
  have hkeys : (s.map Prod.fst ++ k :: t.map Prod.fst).Nodup := by
    simpa using hnd
  have hknot : k ∉ t.map Prod.fst :=
    (List.nodup_cons.1 hkeys.of_append_right).1
  have hfresh : ∀ p ∈ t, p.1 ≠ k := by
    intro p hp he
    exact hknot (List.mem_map.2 ⟨p, hp, he⟩)
  rw [List.foldl_append]
  show lookupKey k (List.foldl insertPinT
    (insertPinT (List.foldl insertPinT acc s) (k, v)) t) = some v
  rw [foldl_insertPinT_fresh k t _ hfresh, lookupKey_insertPinT_self]

theorem foldl_insertPinT_nodup (ps : List (K × V)) :
    ∀ acc, (acc.map Prod.fst).Nodup →
      (((ps.foldl insertPinT acc)).map Prod.fst).Nodup := by
  induction ps with
  | nil => intro acc h; exact h
  | cons p rest ih =>
    intro acc h
    exact ih (insertPinT acc p) (insertPinT_nodup acc p h)

theorem insertPin_false_ok {acc acc2 : List (K × V)} {p : K × V}
    (h : insertPin false acc p = .ok acc2) :
    acc2 = acc ∨ acc2 = acc ++ [p] := by
  rcases hl : lookupKey p.1 acc with _ | v
  · simp only [insertPin, hl, Except.ok.injEq] at h
    exact Or.inr h.symm
  · simp only [insertPin, hl] at h
    by_cases hv : v = p.2
    · rw [if_pos hv] at h
      cases h
      exact Or.inl rfl
    · simp [hv] at h

theorem insertPin_false_mono {acc acc2 : List (K × V)} {p : K × V} {k : K}
    {w : V} (h : insertPin false acc p = .ok acc2)
    (hl : lookupKey k acc = some w) : lookupKey k acc2 = some w := by
  rcases insertPin_false_ok h with he | he
  · rw [he]; exact hl
  · rw [he, lookupKey_append, hl]

theorem mergePins_false_conflict {k : K} {v₂ : V} (ps : List (K × V)) :
    ∀ acc v₁, lookupKey k acc = some v₁ → (k, v₂) ∈ ps → v₁ ≠ v₂ →
      ∃ e, mergePins false acc ps = .error e := by
  induction ps with
  | nil => intro acc v₁ _ hm _; simp at hm
  | cons p rest ih =>
    intro acc v₁ hl hm hne
    rcases hi : insertPin false acc p with e | acc2
    · exact ⟨e, by simp [mergePins, hi]⟩
    · have hstep : mergePins false acc (p :: rest) = mergePins false acc2 rest := by
        simp [mergePins, hi]
      rcases List.mem_cons.1 hm with he | hm2
      · exfalso
        have hp1 : p.1 = k := by rw [← he]
        have hp2 : p.2 = v₂ := by rw [← he]
        rw [insertPin, hp1, hl, hp2] at hi
        simp [hne] at hi
      · have hl2 : lookupKey k acc2 = some v₁ := insertPin_false_mono hi hl
        rcases ih acc2 v₁ hl2 hm2 hne with ⟨e, he⟩
        exact ⟨e, by rw [hstep]; exact he⟩

theorem mergePins_false_fresh (ps : List (K × V)) :
    ∀ acc, (∀ p ∈ ps, lookupKey p.1 acc = none) →
      (ps.map Prod.fst).Nodup →
      mergePins false acc ps = .ok (acc ++ ps) := by
  induction ps with
  | nil => intro acc _ _; simp [mergePins]
  | cons p rest ih =>
    intro acc hfresh hnd
    have hp : lookupKey p.1 acc = none := hfresh p (List.mem_cons_self p rest)
    have hi : insertPin false acc p = .ok (acc ++ [p]) := by
      simp [insertPin, hp]
    rw [List.map_cons] at hnd
    have hnotin : p.1 ∉ rest.map Prod.fst := (List.nodup_cons.1 hnd).1
    have hnd2 : (rest.map Prod.fst).Nodup := (List.nodup_cons.1 hnd).2
    have hfresh2 : ∀ q ∈ rest, lookupKey q.1 (acc ++ [p]) = none := by
      intro q hq
      have hq1 : lookupKey q.1 acc = none :=
        hfresh q (List.mem_cons_of_mem p hq)
      have hq2 : q.1 ≠ p.1 := by
        intro he
        exact hnotin (he ▸ List.mem_map.2 ⟨q, hq, rfl⟩)
      rw [lookupKey_append, hq1]
      simp [lookupKey, Ne.symm hq2]
    calc mergePins false acc (p :: rest)
        = mergePins false (acc ++ [p]) rest := by simp [mergePins, hi]
      _ = .ok ((acc ++ [p]) ++ rest) := ih (acc ++ [p]) hfresh2 hnd2
      _ = .ok (acc ++ p :: rest) := by simp

theorem insertPin_ok_nodup {ignore : Bool} {acc acc2 : List (K × V)}
    {p : K × V} (h : insertPin ignore acc p = .ok acc2)
    (hnd : (acc.map Prod.fst).Nodup) : (acc2.map Prod.fst).Nodup := by
  rcases hl : lookupKey p.1 acc with _ | v
  · simp only [insertPin, hl, Except.ok.injEq] at h
    subst h
    have hfree : p.1 ∉ acc.map Prod.fst := (lookupKey_eq_none p.1 acc).1 hl
    simp only [List.map_append, List.map_cons, List.map_nil]
    exact List.Nodup.append hnd (List.nodup_singleton p.1)
      (fun a ha hb => hfree ((List.mem_singleton.1 hb) ▸ ha))
  · simp only [insertPin, hl] at h
    by_cases hv : v = p.2
    · rw [if_pos hv] at h
      cases h
      exact hnd
    · rw [if_neg hv] at h
      cases ignore with
      | false => simp at h
      | true =>
        simp only [if_true, Except.ok.injEq] at h
        subst h
        rw [keys_update]
        exact hnd

theorem mergePins_ok_nodup {ignore : Bool} (ps : List (K × V)) :
    ∀ acc acc2, mergePins ignore acc ps = .ok acc2 →
      (acc.map Prod.fst).Nodup → (acc2.map Prod.fst).Nodup := by
  induction ps with
  | nil =>
    intro acc acc2 h hnd
    simp only [mergePins, Except.ok.injEq] at h
    exact h ▸ hnd
  | cons p rest ih =>
    intro acc acc2 h hnd
    rcases hi : insertPin ignore acc p with e | acci
    · rw [mergePins, hi] at h
      cases h
    · rw [mergePins, hi] at h
      exact ih acci acc2 h (insertPin_ok_nodup hi hnd)

theorem mergeManifests_ok_nodup {ignore : Bool} (ms : List (List (K × V))) :
    ∀ acc acc2, mergeManifests ignore acc ms = .ok acc2 →
      (acc.map Prod.fst).Nodup → (acc2.map Prod.fst).Nodup := by
  induction ms with
  | nil =>
    intro acc acc2 h hnd
    simp only [mergeManifests, Except.ok.injEq] at h
    exact h ▸ hnd
  | cons m ms ih =>
    intro acc acc2 h hnd
    rcases hi : mergePins ignore acc m with e | acci
    · rw [mergeManifests, hi] at h
      cases h
    · rw [mergeManifests, hi] at h
      exact ih acci acc2 h (mergePins_ok_nodup m acc acci hi hnd)

/-- C1: lockfile generation is deterministic and canonical: the generator is
a pure function of its manifest inputs — applied twice to identical inputs
it produces identical, hence byte-identical once serialized, output — and
every successful output is a canonical mapping sorted by key, each key bound
once. -/
theorem generateLocks_deterministic_canonical (ignore : Bool)
    (ms : List (List (K × V))) :
    generateLocks ignore ms = generateLocks ignore ms ∧
    (∀ lf, generateLocks ignore ms = .ok lf →
      List.Pairwise (fun a b : K × V => a.1 ≤ b.1) lf ∧
      (lf.map Prod.fst).Nodup) := by
  refine ⟨rfl, ?_⟩
  intro lf hok
  rcases hm : mergeManifests ignore ([] : List (K × V)) ms with e | pins
  · simp [generateLocks, hm] at hok
  · simp only [generateLocks, hm, Except.ok.injEq] at hok
    subst hok
    constructor
    · exact List.sorted_insertionSort _ pins
    · have hnd : (pins.map Prod.fst).Nodup :=
        mergeManifests_ok_nodup ms [] pins hm (by simp)
      exact (((List.perm_insertionSort _ pins).map Prod.fst).nodup_iff).2 hnd

/-- Witness for C1: a concrete two-manifest input is generated into the
key-sorted lockfile, whose sortedness the main theorem certifies. -/
theorem generateLocks_deterministic_canonical_witness :
    generateLocks false ([[(2, 0), (1, 5)], [(1, 5)]] :
        List (List (Nat × Nat))) = .ok [(1, 5), (2, 0)] ∧
    List.Pairwise (fun a b : Nat × Nat => a.1 ≤ b.1) [(1, 5), (2, 0)] :=
  ⟨rfl,
    ((generateLocks_deterministic_canonical false
      ([[(2, 0), (1, 5)], [(1, 5)]] : List (List (Nat × Nat)))).2
        [(1, 5), (2, 0)] rfl).1⟩

/-- C2: generating a lockfile from two inputs that pin the same key to
different revisions fails with a lock-conflict error unless conflict
detection is suppressed, in which case the later input's pin wins; the
resolve command sets the suppression flag before every generation. -/
theorem generateLocks_conflict_suppression (m₁ m₂ : List (K × V)) (k : K)
    (v₁ v₂ : V) (hnd₁ : (m₁.map Prod.fst).Nodup)
    (hnd₂ : (m₂.map Prod.fst).Nodup) (hm₁ : (k, v₁) ∈ m₁)
    (hm₂ : (k, v₂) ∈ m₂) (hne : v₁ ≠ v₂) :
    (∃ e, generateLocks false [m₁, m₂] = .error e) ∧
    (∃ lf, generateLocks true [m₁, m₂] = .ok lf ∧ lookupKey k lf = some v₂) ∧
    (∀ x : JiriX, (runResolveState x).ignoreLockConflicts = true) := by
  refine ⟨?_, ?_, fun x => rfl⟩
  · have hfresh : ∀ p ∈ m₁, lookupKey p.1 ([] : List (K × V)) = none := by
      intro p _
      rfl
    have h1 : mergePins false ([] : List (K × V)) m₁ = .ok m₁ := by
      simpa using mergePins_false_fresh m₁ [] hfresh hnd₁
    have hl : lookupKey k m₁ = some v₁ := lookupKey_of_mem_nodup hnd₁ hm₁
    rcases mergePins_false_conflict m₂ m₁ v₁ hl hm₂ hne with ⟨e, he⟩
    refine ⟨e, ?_⟩
    have hmm : mergeManifests false ([] : List (K × V)) [m₁, m₂] = .error e := by
      simp only [mergeManifests, h1, he]
    simp [generateLocks, hmm]
  · have hok : mergeManifests true ([] : List (K × V)) [m₁, m₂] =
        .ok (m₂.foldl insertPinT (m₁.foldl insertPinT [])) :=
      mergeManifests_true [m₁, m₂] []
    have hwin : lookupKey k (m₂.foldl insertPinT (m₁.foldl insertPinT [])) =
        some v₂ := foldl_insertPinT_wins hnd₂ hm₂ _
    have hnd : ((m₂.foldl insertPinT
        (m₁.foldl insertPinT ([] : List (K × V)))).map Prod.fst).Nodup :=
      foldl_insertPinT_nodup m₂ _ (foldl_insertPinT_nodup m₁ [] (by simp))
    refine ⟨(m₂.foldl insertPinT
      (m₁.foldl insertPinT [])).insertionSort (fun a b => a.1 ≤ b.1), ?_, ?_⟩
    · simp [generateLocks, hok]
    · have hmem : (k, v₂) ∈ m₂.foldl insertPinT (m₁.foldl insertPinT []) :=
        lookupKey_mem hwin
      have hmem2 : (k, v₂) ∈ (m₂.foldl insertPinT
          (m₁.foldl insertPinT [])).insertionSort (fun a b => a.1 ≤ b.1) :=
        (List.mem_insertionSort _).2 hmem
      have hnds : (((m₂.foldl insertPinT
          (m₁.foldl insertPinT ([] : List (K × V)))).insertionSort
            (fun a b => a.1 ≤ b.1)).map Prod.fst).Nodup :=
        (((List.perm_insertionSort _ _).map Prod.fst).nodup_iff).2 hnd
      exact lookupKey_of_mem_nodup hnds hmem2

/-- Witness for C2: two singleton manifests pinning key 1 to 10 and 20. -/
theorem generateLocks_conflict_suppression_witness :
    (∃ e, generateLocks false ([[(1, 10)], [(1, 20)]] :
      List (List (Nat × Nat))) = .error e) ∧
    (∃ lf, generateLocks true ([[(1, 10)], [(1, 20)]] :
      List (List (Nat × Nat))) = .ok lf ∧ lookupKey 1 lf = some 20) :=
  ⟨(generateLocks_conflict_suppression
      ([(1, 10)] : List (Nat × Nat)) [(1, 20)] 1 10 20
      (by decide) (by decide) (by decide) (by decide) (by decide)).1,
    (generateLocks_conflict_suppression
      ([(1, 10)] : List (Nat × Nat)) [(1, 20)] 1 10 20
      (by decide) (by decide) (by decide) (by decide) (by decide)).2.1⟩

end LockfileProofs

end Jiri
